import Mathlib

/-!
# Verification of the FIT4002 text-summarization retrieval pipeline

Shallow embedding of the ml-service retrieval core:

* `chunkTextFuel`   — `DocumentProcessor.chunk_text` (app/document_processor.py),
  modelled with explicit fuel because the Python `while` loop is not
  structurally recursive (and, as proved below, genuinely diverges on some
  inputs).  Python indexing (negative wrap-around, `IndexError`) and slicing
  are modelled faithfully by `pyIdx` / `pySlice`.
* `searchSimilar`   — the deduplication loop of `ChromaService.search_similar`
  (services/chroma_service.py).
* `hybridSearch`    — `AISearchService.hybrid_search` (app/ai_search.py),
  parameterised over the external collaborators (LLM generation outcomes,
  embedding model, vector store) collected in an `Oracles` record.

Floats are modelled as `ℚ`; external calls are modelled as oracle values.
-/

set_option maxRecDepth 20000

/-! ## Python primitives -/

/-- Python `s[i]` on a string/list: non-negative indices are direct, negative
indices wrap from the end, out-of-range gives `none` (an `IndexError`). -/
def pyIdx (l : List Char) (i : Int) : Option Char :=
  if 0 ≤ i then l.get? i.toNat
  else if 0 ≤ i + l.length then l.get? (i + l.length).toNat
  else none

/-- Clamp one endpoint of a Python slice `l[a:b]` to `[0, l.length]`. -/
def pySliceIdx (n : Nat) (a : Int) : Nat :=
  if a < 0 then (a + n).toNat else min a.toNat n

/-- Python slice `l[a:b]` (step 1), with negative-index wrap-around and
clamping; an empty slice when the clamped start is past the clamped end. -/
def pySlice (l : List Char) (a b : Int) : List Char :=
  (l.take (pySliceIdx l.length b)).drop (pySliceIdx l.length a)

/-- Python `str.strip()`: drop whitespace from both ends. -/
def pyStrip (l : List Char) : List Char :=
  ((l.dropWhile Char.isWhitespace).reverse.dropWhile Char.isWhitespace).reverse

/-- Python `range(a, b, -1)`: the descending integers `a, a-1, …, b+1`. -/
def pyRangeDown (a b : Int) : List Int :=
  (List.range (a - b).toNat).map (fun k => a - (k : Int))

/-! ## `DocumentProcessor.chunk_text` -/

/-- The sentence/paragraph terminators `'.!?\n'` used by `chunk_text`. -/
def isTerm (c : Char) : Bool :=
  c = '.' || c = '!' || c = '?' || c = '\n'

/-- The boundary scan `for i in range(end, start+chunk_size-100, -1)` of
`chunk_text`: walk the descending indices; a wrapped out-of-range access is a
Python `IndexError` (modelled as `.error`), a terminator at `i` yields the new
chunk end `i+1`, and falling off the range keeps the raw boundary (`none`). -/
def findTerm (text : List Char) : List Int → Except Unit (Option Int)
  | [] => .ok none
  | i :: rest =>
    match pyIdx text i with
    | none => .error ()
    | some c => if isTerm c then .ok (some (i + 1)) else findTerm text rest

/-- The `end` computed by one iteration of the `chunk_text` loop: the raw
boundary `start + chunk_size`, pulled back to just after a terminator found in
the last 100 characters of the window when the boundary is strictly inside the
text. -/
def chunkEnd (text : List Char) (cs start : Int) : Except Unit Int :=
  let end0 := start + cs
  if end0 < (text.length : Int) then
    match findTerm text (pyRangeDown end0 (start + cs - 100)) with
    | .error _ => .error ()
    | .ok none => .ok end0
    | .ok (some e) => .ok e
  else .ok end0

/-- The `while start < len(text)` loop of `chunk_text`, with explicit fuel:
`none` means the fuel ran out (the loop is still running), `some (.error ())`
an uncaught `IndexError` from the boundary scan, `some (.ok chunks)` a normal
return. -/
def chunkLoop (text : List Char) (cs ov : Int) :
    Nat → Int → List (List Char) → Option (Except Unit (List (List Char)))
  | 0, _, _ => none
  | fuel + 1, start, chunks =>
    if start < (text.length : Int) then
      match chunkEnd text cs start with
      | .error _ => some (.error ())
      | .ok e =>
        let chunk := pyStrip (pySlice text start e)
        let chunks' := if chunk.isEmpty then chunks else chunks ++ [chunk]
        let start' := e - ov
        if (text.length : Int) ≤ start' then some (.ok chunks')
        else chunkLoop text cs ov fuel start' chunks'
    else some (.ok chunks)

/-- `DocumentProcessor.chunk_text(text, chunk_size, overlap)`.  A text no
longer than `chunk_size` is returned whole as a single chunk; otherwise the
scanning loop runs (with fuel). -/
def chunkTextFuel (fuel : Nat) (text : List Char) (cs ov : Int) :
    Option (Except Unit (List (List Char))) :=
  if (text.length : Int) ≤ cs then some (.ok [text]) else chunkLoop text cs ov fuel 0 []

/-- The divergence input for `chunk_text`: 99 `'a'`s, one `'.'`, 50 `'a'`s
(150 characters), with `chunk_size = overlap = 99`. -/
def divText : List Char :=
  List.replicate 99 'a' ++ '.' :: List.replicate 50 'a'

theorem divText_step0 (fuel : Nat) :
    chunkLoop divText 99 99 (fuel + 1) 0 [] =
      chunkLoop divText 99 99 fuel 1 [pyStrip (pySlice divText 0 100)] := rfl

theorem divText_step1 (fuel : Nat) (chunks : List (List Char)) :
    chunkLoop divText 99 99 (fuel + 1) 1 chunks =
      chunkLoop divText 99 99 fuel 1 (chunks ++ [pyStrip (pySlice divText 1 100)]) := rfl

theorem divText_loop_none : ∀ (fuel : Nat) (chunks : List (List Char)),
    chunkLoop divText 99 99 fuel 1 chunks = none := by
  intro fuel
  induction fuel with
  | zero => intro chunks; rfl
  | succ n ih => intro chunks; rw [divText_step1]; exact ih _

/-- C3: `chunk_text` is claimed to terminate for every text, `chunkSize > 0`
and `overlap ≥ 0`, thanks to an `overlap ≥ chunkSize → chunkSize - 1` guard.
No such guard exists in the code: on a 150-character text with
`chunk_size = overlap = 99` the scan position stays at 1 forever, so no amount
of fuel makes the loop return. -/
theorem chunkText_diverges (fuel : Nat) :
    chunkTextFuel fuel divText 99 99 = none := by
  cases fuel with
  | zero => rfl
  | succ n =>
    show chunkLoop divText 99 99 (n + 1) 0 [] = none
    rw [divText_step0]
    exact divText_loop_none n _

/-- Every chunk the scanning loop ever appends has survived
`chunk = text[start:end].strip(); if chunk:` — so, given that the chunks
accumulated so far are non-empty, every chunk of a normal return is
non-empty. -/
theorem chunkLoop_nonempty (text : List Char) (cs ov : Int) :
    ∀ (fuel : Nat) (start : Int) (acc chunks : List (List Char)),
      (∀ c ∈ acc, c ≠ []) →
      chunkLoop text cs ov fuel start acc = some (.ok chunks) →
      ∀ c ∈ chunks, c ≠ [] := by
  intro fuel
  induction fuel with
  | zero =>
    intro start acc chunks _ h
    exact absurd h (by simp [chunkLoop])
  | succ n ih =>
    intro start acc chunks hacc h
    rw [chunkLoop] at h
    by_cases hlt : start < (text.length : Int)
    · rw [if_pos hlt] at h
      cases hend : chunkEnd text cs start with
      | error e => rw [hend] at h; exact absurd h (by simp)
      | ok e =>
        rw [hend] at h
        simp only at h
        have hacc' : ∀ c ∈ (if (pyStrip (pySlice text start e)).isEmpty then acc
            else acc ++ [pyStrip (pySlice text start e)]), c ≠ [] := by
          by_cases hemp : (pyStrip (pySlice text start e)).isEmpty
          · rw [if_pos hemp]; exact hacc
          · rw [if_neg hemp]
            intro c hc
            rcases List.mem_append.mp hc with hc | hc
            · exact hacc c hc
            · rcases List.mem_singleton.mp hc with rfl
              intro hnil
              rw [hnil] at hemp
              exact hemp rfl
        by_cases hbrk : (text.length : Int) ≤ e - ov
        · rw [if_pos hbrk] at h
          have := Option.some.inj h
          have := Except.ok.inj this
          rw [← this]
          exact hacc'
        · rw [if_neg hbrk] at h
          exact ih (e - ov) _ chunks hacc' h
    · rw [if_neg hlt] at h
      have := Option.some.inj h
      have := Except.ok.inj this
      rw [← this]
      exact hacc

/-- C8 (amended): a text no longer than `chunk_size` is returned whole as the
single chunk `[text]` (first conjunct); and whenever `chunk_text` returns on a
*non-empty* text, every returned chunk is non-empty (second conjunct).  The
original claim's unrestricted "no chunk is empty" fails on the empty text,
which the first branch returns as the single empty chunk —
see `chunkText_empty_cex`. -/
theorem chunkText_small_nonempty :
    (∀ (text : List Char) (cs ov : Int) (fuel : Nat),
        (text.length : Int) ≤ cs → chunkTextFuel fuel text cs ov = some (.ok [text]))
    ∧ (∀ (text : List Char) (cs ov : Int) (fuel : Nat) (chunks : List (List Char)),
        text ≠ [] → chunkTextFuel fuel text cs ov = some (.ok chunks) →
        ∀ c ∈ chunks, c ≠ []) := by
  constructor
  · intro text cs ov fuel hle
    rw [chunkTextFuel, if_pos hle]
  · intro text cs ov fuel chunks hne h
    rw [chunkTextFuel] at h
    by_cases hle : (text.length : Int) ≤ cs
    · rw [if_pos hle] at h
      have := Option.some.inj h
      have := Except.ok.inj this
      rw [← this]
      intro c hc
      rcases List.mem_singleton.mp hc with rfl
      exact hne
    · rw [if_neg hle] at h
      exact chunkLoop_nonempty text cs ov fuel 0 [] chunks (by simp) h

/-- C8 counterexample: on the empty text, `chunk_text` returns the
single-element list containing the empty chunk, so "no chunk is empty" fails
as stated. -/
theorem chunkText_empty_cex :
    chunkTextFuel 1 ([] : List Char) 5 2 = some (.ok [[]]) ∧
      ([] : List Char) ∈ [([] : List Char)] := ⟨rfl, by simp⟩

theorem chunkText_small_nonempty_witness :
    chunkTextFuel 3 ['a', 'b'] 5 2 = some (.ok [['a', 'b']]) ∧
      ∀ c ∈ [['a', 'b']], c ≠ ([] : List Char) :=
  ⟨chunkText_small_nonempty.1 ['a', 'b'] 5 2 3 (by decide),
   chunkText_small_nonempty.2 ['a', 'b'] 5 2 3 [['a', 'b']] (by decide)
     (chunkText_small_nonempty.1 ['a', 'b'] 5 2 3 (by decide))⟩

/-! ## `ChromaService.search_similar` — deduplication by `file_id`

A raw vector-store hit: document text, the `file_id` drawn from its metadata
(`meta.get('file_id')`, possibly absent), and its cosine distance. -/

structure CHit where
  doc : String
  fileId : Option Int
  dist : ℚ
deriving DecidableEq

instance : Inhabited CHit := ⟨⟨"", none, 0⟩⟩

/-- First-match association-list lookup; `seen_file_ids` is a Python dict
whose keys are kept unique by the loop, so first-match equals dict lookup. -/
def lookupA (fid : Int) : List (Int × Nat) → Option Nat
  | [] => none
  | p :: rest => if p.1 = fid then some p.2 else lookupA fid rest

/-- The deduplication loop of `search_similar`: iterate the raw hits; a hit
without `file_id` is dropped (logged in the source); an unseen `file_id` is
appended (remembering its index); a seen `file_id` is replaced when the new
distance is strictly smaller; after each kept hit the loop breaks as soon as
the number of distinct files reaches `num_results`. -/
def dedupLoop (n : Nat) : List CHit → List (Int × Nat) → List CHit → List CHit
  | [], _, uniq => uniq
  | h :: rest, seen, uniq =>
    match h.fileId with
    | none => dedupLoop n rest seen uniq
    | some fid =>
      match lookupA fid seen with
      | none =>
        let seen' := seen ++ [(fid, uniq.length)]
        let uniq' := uniq ++ [h]
        if n ≤ seen'.length then uniq' else dedupLoop n rest seen' uniq'
      | some idx =>
        let uniq' := if h.dist < (uniq.getD idx default).dist then uniq.set idx h else uniq
        if n ≤ seen.length then uniq' else dedupLoop n rest seen uniq'

/-- `ChromaService.search_similar` after the raw `collection.query` call:
deduplicate by `file_id`, then truncate to `num_results`. -/
def searchSimilar (n : Nat) (hits : List CHit) : List CHit :=
  (dedupLoop n hits [] []).take n

theorem lookupA_mem {fid : Int} {v : Nat} :
    ∀ {seen : List (Int × Nat)}, lookupA fid seen = some v → (fid, v) ∈ seen := by
  intro seen
  induction seen with
  | nil => intro h; exact absurd h (by simp [lookupA])
  | cons p rest ih =>
    intro h
    rw [lookupA] at h
    by_cases hp : p.1 = fid
    · rw [if_pos hp] at h
      have hv := Option.some.inj h
      have hpv : (fid, v) = p := by rw [← hp, ← hv]
      rw [hpv]
      exact List.mem_cons_self _ _
    · rw [if_neg hp] at h
      exact List.mem_cons_of_mem _ (ih h)

theorem lookupA_append_none {fid g : Int} {v : Nat} :
    ∀ {seen : List (Int × Nat)}, lookupA fid (seen ++ [(g, v)]) = none →
      lookupA fid seen = none ∧ fid ≠ g := by
  intro seen
  induction seen with
  | nil =>
    intro h
    simp only [List.nil_append, lookupA] at h
    by_cases hg : g = fid
    · rw [if_pos hg] at h; exact absurd h (by simp)
    · exact ⟨rfl, fun hfg => hg hfg.symm⟩
  | cons p rest ih =>
    intro h
    rw [List.cons_append, lookupA] at h
    by_cases hp : p.1 = fid
    · rw [if_pos hp] at h; exact absurd h (by simp)
    · rw [if_neg hp] at h
      have := ih h
      exact ⟨by rw [lookupA, if_neg hp]; exact this.1, this.2⟩

theorem lookupA_isSome_mono {fid : Int} {seen l : List (Int × Nat)}
    (h : (lookupA fid seen).isSome) : (lookupA fid (seen ++ l)).isSome := by
  induction seen with
  | nil => simp [lookupA] at h
  | cons p rest ih =>
    rw [List.cons_append, lookupA]
    rw [lookupA] at h
    by_cases hp : p.1 = fid
    · rw [if_pos hp]; simp
    · rw [if_neg hp] at h ⊢; exact ih h

theorem lookupA_append_key {fid : Int} {v : Nat} :
    ∀ (seen : List (Int × Nat)), (lookupA fid (seen ++ [(fid, v)])).isSome := by
  intro seen
  induction seen with
  | nil => simp [lookupA]
  | cons p rest ih =>
    rw [List.cons_append, lookupA]
    by_cases hp : p.1 = fid
    · rw [if_pos hp]; simp
    · rw [if_neg hp]; exact ih

theorem getD_mem_of_lt {α : Type} (l : List α) (idx : Nat) (d : α)
    (h : idx < l.length) : l.getD idx d ∈ l := by
  induction l generalizing idx with
  | nil => simp at h
  | cons a t ih =>
    cases idx with
    | zero => simp [List.getD]
    | succ i =>
      have hi : i < t.length := by simpa using h
      rw [List.getD_cons_succ]
      exact List.mem_cons_of_mem _ (ih i hi)

/-- Every hit kept by the dedup loop has a `file_id` (given that the kept
hits so far do): the `none` branch drops the hit, the append branch adds a
hit with `some fid`, and the replace branch substitutes a hit with
`some fid`. -/
theorem dedupLoop_isSome (n : Nat) :
    ∀ (rest : List CHit) (seen : List (Int × Nat)) (uniq : List CHit),
      (∀ u ∈ uniq, u.fileId.isSome) →
      ∀ u ∈ dedupLoop n rest seen uniq, u.fileId.isSome := by
  intro rest
  induction rest with
  | nil => intro seen uniq hu; exact hu
  | cons h rest' ih =>
    intro seen uniq hu
    rw [dedupLoop]
    cases hfid : h.fileId with
    | none => exact ih seen uniq hu
    | some fid =>
      have hsomeh : h.fileId.isSome := by rw [hfid]; rfl
      cases hlk : lookupA fid seen with
      | none =>
        simp only [hlk]
        have hu' : ∀ u ∈ uniq ++ [h], u.fileId.isSome := by
          intro u hmem
          rcases List.mem_append.mp hmem with hmem | hmem
          · exact hu u hmem
          · rcases List.mem_singleton.mp hmem with rfl; exact hsomeh
        by_cases hn : n ≤ (seen ++ [(fid, uniq.length)]).length
        · rw [if_pos hn]; exact hu'
        · rw [if_neg hn]; exact ih _ _ hu'
      | some idx =>
        simp only [hlk]
        have hu' : ∀ u ∈ (if h.dist < (uniq.getD idx default).dist
            then uniq.set idx h else uniq), u.fileId.isSome := by
          by_cases hd : h.dist < (uniq.getD idx default).dist
          · rw [if_pos hd]
            intro u hmem
            rcases List.mem_or_eq_of_mem_set hmem with hmem | rfl
            · exact hu u hmem
            · exact hsomeh
          · rw [if_neg hd]; exact hu
        by_cases hn : n ≤ seen.length
        · rw [if_pos hn]; exact hu'
        · rw [if_neg hn]; exact ih _ _ hu'

/-- C5: every hit returned by `search_similar` carries a document identifier;
a raw hit whose metadata lacks `file_id` is dropped (the code logs it and
`continue`s, raising nothing), never silently kept. -/
theorem searchSimilar_drops_missing_fileId (n : Nat) (hits : List CHit) :
    ∀ u ∈ searchSimilar n hits, u.fileId.isSome :=
  fun u hu =>
    dedupLoop_isSome n hits [] [] (by simp) u (List.take_subset n _ hu)

theorem searchSimilar_drops_missing_fileId_witness :
    (⟨"y", some 1, 0⟩ : CHit) ∈ searchSimilar 1 [⟨"x", none, 0⟩, ⟨"y", some 1, 0⟩] ∧
      (⟨"y", some 1, 0⟩ : CHit).fileId.isSome :=
  ⟨by decide,
   searchSimilar_drops_missing_fileId 1 [⟨"x", none, 0⟩, ⟨"y", some 1, 0⟩]
     ⟨"y", some 1, 0⟩ (by decide)⟩

/-- Loop invariant for the dedup loop on a distance-sorted raw hit list.
`done` is the already-scanned prefix, `seen`/`uniq` the loop state: every kept
hit comes from the scanned prefix and is globally minimum-distance for its
`file_id`, kept `file_id`s are distinct, `seen` maps exactly the kept
`file_id`s to in-range indices, and every scanned hit's `file_id` is in
`seen`. -/
theorem dedupLoop_sorted_inv (hits : List CHit)
    (hs : hits.Pairwise (fun a b => a.dist ≤ b.dist)) (n : Nat) :
    ∀ (rest done : List CHit) (seen : List (Int × Nat)) (uniq : List CHit),
      done ++ rest = hits →
      (∀ u ∈ uniq, u ∈ done) →
      (∀ u ∈ uniq, ∀ g ∈ hits, g.fileId = u.fileId → u.dist ≤ g.dist) →
      (uniq.map CHit.fileId).Nodup →
      (∀ fid, lookupA fid seen = none → ∀ u ∈ uniq, u.fileId ≠ some fid) →
      (∀ p ∈ seen, p.2 < uniq.length) →
      (∀ d ∈ done, ∀ fid, d.fileId = some fid → (lookupA fid seen).isSome) →
      (∀ u ∈ dedupLoop n rest seen uniq, u ∈ hits ∧
          ∀ g ∈ hits, g.fileId = u.fileId → u.dist ≤ g.dist) ∧
        ((dedupLoop n rest seen uniq).map CHit.fileId).Nodup := by
  intro rest
  induction rest with
  | nil =>
    intro done seen uniq heq hI9 hI1 hI2 _ _ _
    rw [List.append_nil] at heq
    subst heq
    exact ⟨fun u hu => ⟨hI9 u hu, hI1 u hu⟩, hI2⟩
  | cons h rest' ih =>
    intro done seen uniq heq hI9 hI1 hI2 hI3 hI8 hI7
    have hsplit : (done ++ h :: rest').Pairwise (fun a b => a.dist ≤ b.dist) := by
      rw [heq]; exact hs
    obtain ⟨hpd, hpr, hdr⟩ := List.pairwise_append.mp hsplit
    have hhr : ∀ r ∈ rest', h.dist ≤ r.dist := (List.pairwise_cons.mp hpr).1
    have hmemh : h ∈ hits := by
      rw [← heq]; exact List.mem_append_right _ (List.mem_cons_self _ _)
    have hdonesub : ∀ d ∈ done, d ∈ hits := fun d hd => by
      rw [← heq]; exact List.mem_append_left _ hd
    rw [dedupLoop]
    cases hfid : h.fileId with
    | none =>
      apply ih (done ++ [h]) seen uniq
      · rw [List.append_assoc, List.singleton_append]; exact heq
      · exact fun u hu => List.mem_append_left _ (hI9 u hu)
      · exact hI1
      · exact hI2
      · exact hI3
      · exact hI8
      · intro d hd f hf
        rcases List.mem_append.mp hd with hd | hd
        · exact hI7 d hd f hf
        · rcases List.mem_singleton.mp hd with rfl
          rw [hfid] at hf
          exact absurd hf (by simp)
    | some fid =>
      cases hlk : lookupA fid seen with
      | none =>
        simp only [hlk]
        have hminh : ∀ g ∈ hits, g.fileId = h.fileId → h.dist ≤ g.dist := by
          intro g hg hgf
          rw [← heq] at hg
          rcases List.mem_append.mp hg with hg | hg
          · exfalso
            have hsome := hI7 g hg fid (by rw [hgf, hfid])
            rw [hlk] at hsome
            exact absurd hsome (by simp)
          · rcases List.mem_cons.mp hg with rfl | hg
            · exact le_refl _
            · exact hhr g hg
        have hI9' : ∀ u ∈ uniq ++ [h], u ∈ done ++ [h] := by
          intro u hu
          rcases List.mem_append.mp hu with hu | hu
          · exact List.mem_append_left _ (hI9 u hu)
          · exact List.mem_append_right _ hu
        have hI1' : ∀ u ∈ uniq ++ [h], ∀ g ∈ hits,
            g.fileId = u.fileId → u.dist ≤ g.dist := by
          intro u hu
          rcases List.mem_append.mp hu with hu | hu
          · exact hI1 u hu
          · rcases List.mem_singleton.mp hu with rfl
            exact hminh
        have hI2' : ((uniq ++ [h]).map CHit.fileId).Nodup := by
          rw [List.map_append, List.nodup_append]
          refine ⟨hI2, by simp, ?_⟩
          intro x hx hx'
          rcases List.mem_map.mp hx with ⟨u, hu, rfl⟩
          simp only [List.map_cons, List.map_nil] at hx'
          rcases List.mem_singleton.mp hx' with heqf
          exact hI3 fid hlk u hu (by rw [heqf, hfid])
        have hI3' : ∀ f, lookupA f (seen ++ [(fid, uniq.length)]) = none →
            ∀ u ∈ uniq ++ [h], u.fileId ≠ some f := by
          intro f hf u hu
          obtain ⟨hfseen, hne⟩ := lookupA_append_none hf
          rcases List.mem_append.mp hu with hu | hu
          · exact hI3 f hfseen u hu
          · rcases List.mem_singleton.mp hu with rfl
            rw [hfid]
            intro hcon
            exact hne (Option.some.inj hcon).symm
        have hI8' : ∀ p ∈ seen ++ [(fid, uniq.length)], p.2 < (uniq ++ [h]).length := by
          intro p hp
          rw [List.length_append, List.length_singleton]
          rcases List.mem_append.mp hp with hp | hp
          · exact Nat.lt_succ_of_lt (hI8 p hp)
          · rcases List.mem_singleton.mp hp with rfl
            exact Nat.lt_succ_self _
        have hI7' : ∀ d ∈ done ++ [h], ∀ f, d.fileId = some f →
            (lookupA f (seen ++ [(fid, uniq.length)])).isSome := by
          intro d hd f hf
          rcases List.mem_append.mp hd with hd | hd
          · exact lookupA_isSome_mono (hI7 d hd f hf)
          · rcases List.mem_singleton.mp hd with rfl
            rw [hfid] at hf
            have hffid : f = fid := (Option.some.inj hf).symm
            rw [hffid]
            exact lookupA_append_key seen
        by_cases hn : n ≤ (seen ++ [(fid, uniq.length)]).length
        · rw [if_pos hn]
          refine ⟨fun u hu => ⟨?_, hI1' u hu⟩, hI2'⟩
          rcases List.mem_append.mp (hI9' u hu) with hu' | hu'
          · exact hdonesub u hu'
          · rcases List.mem_singleton.mp hu' with rfl
            exact hmemh
        · rw [if_neg hn]
          apply ih (done ++ [h]) (seen ++ [(fid, uniq.length)]) (uniq ++ [h])
          · rw [List.append_assoc, List.singleton_append]; exact heq
          · exact hI9'
          · exact hI1'
          · exact hI2'
          · exact hI3'
          · exact hI8'
          · exact hI7'
      | some idx =>
        simp only [hlk]
        have hidxmem : (fid, idx) ∈ seen := lookupA_mem hlk
        have hidx : idx < uniq.length := hI8 (fid, idx) hidxmem
        have hu0 : uniq.getD idx default ∈ uniq := getD_mem_of_lt uniq idx default hidx
        have hled : (uniq.getD idx default).dist ≤ h.dist :=
          hdr _ (hI9 _ hu0) h (List.mem_cons_self _ _)
        have hnr : ¬ h.dist < (uniq.getD idx default).dist := not_lt.mpr hled
        rw [if_neg hnr]
        by_cases hn : n ≤ seen.length
        · rw [if_pos hn]
          exact ⟨fun u hu => ⟨hdonesub u (hI9 u hu), hI1 u hu⟩, hI2⟩
        · rw [if_neg hn]
          apply ih (done ++ [h]) seen uniq
          · rw [List.append_assoc, List.singleton_append]; exact heq
          · exact fun u hu => List.mem_append_left _ (hI9 u hu)
          · exact hI1
          · exact hI2
          · exact hI3
          · exact hI8
          · intro d hd f hf
            rcases List.mem_append.mp hd with hd | hd
            · exact hI7 d hd f hf
            · rcases List.mem_singleton.mp hd with rfl
              rw [hfid] at hf
              have hffid : f = fid := (Option.some.inj hf).symm
              rw [hffid, hlk]
              rfl

theorem listGetSome_lt {α : Type} :
    ∀ (l : List α) (n : Nat) (a : α), l.get? n = some a → n < l.length := by
  intro l
  induction l with
  | nil => intro n a h; exact absurd h (by simp)
  | cons x t ih =>
    intro n a h
    cases n with
    | zero => exact Nat.succ_pos _
    | succ m =>
      rw [List.get?_cons_succ] at h
      exact Nat.succ_lt_succ (ih m a h)

theorem listSetSame {α : Type} :
    ∀ (l : List α) (n : Nat) (a : α), l.get? n = some a → l.set n a = l := by
  intro l
  induction l with
  | nil => intro n a _; rfl
  | cons x t ih =>
    intro n a h
    cases n with
    | zero =>
      rw [List.get?_cons_zero] at h
      have hx := Option.some.inj h
      show a :: t = x :: t
      rw [hx]
    | succ m =>
      rw [List.get?_cons_succ] at h
      show x :: t.set m a = x :: t
      rw [ih m a h]

theorem listGetSetEq {α : Type} :
    ∀ (l : List α) (i : Nat) (a : α), i < l.length → (l.set i a).get? i = some a := by
  intro l
  induction l with
  | nil => intro i a h; exact absurd h (by simp)
  | cons x t ih =>
    intro i a h
    cases i with
    | zero => rfl
    | succ m =>
      show (t.set m a).get? m = some a
      exact ih m a (Nat.lt_of_succ_lt_succ h)

theorem listGetSetNe {α : Type} :
    ∀ (l : List α) (i j : Nat) (a : α), j ≠ i → (l.set i a).get? j = l.get? j := by
  intro l
  induction l with
  | nil => intro i j a _; rfl
  | cons x t ih =>
    intro i j a hne
    cases i with
    | zero =>
      cases j with
      | zero => exact absurd rfl hne
      | succ mj => rfl
    | succ mi =>
      cases j with
      | zero => rfl
      | succ mj =>
        show (t.set mi a).get? mj = t.get? mj
        exact ih mi mj a (fun hh => hne (by rw [hh]))

theorem listMapSet {α β : Type} (f : α → β) :
    ∀ (l : List α) (i : Nat) (a : α), (l.set i a).map f = (l.map f).set i (f a) := by
  intro l
  induction l with
  | nil => intro i a; rfl
  | cons x t ih =>
    intro i a
    cases i with
    | zero => rfl
    | succ m =>
      show f x :: (t.set m a).map f = f x :: (t.map f).set m (f a)
      rw [ih]

theorem listGetMap {α β : Type} (f : α → β) :
    ∀ (l : List α) (n : Nat), (l.map f).get? n = (l.get? n).map f := by
  intro l
  induction l with
  | nil => intro n; cases n <;> rfl
  | cons x t ih =>
    intro n
    cases n with
    | zero => rfl
    | succ m => exact ih m

theorem listGetAppend {α : Type} :
    ∀ (l₁ l₂ : List α) (n : Nat), n < l₁.length → (l₁ ++ l₂).get? n = l₁.get? n := by
  intro l₁
  induction l₁ with
  | nil => intro l₂ n h; exact absurd h (by simp)
  | cons x t ih =>
    intro l₂ n h
    cases n with
    | zero => rfl
    | succ m => exact ih l₂ m (Nat.lt_of_succ_lt_succ h)

theorem listGetConcat {α : Type} :
    ∀ (l : List α) (a : α), (l ++ [a]).get? l.length = some a := by
  intro l a
  induction l with
  | nil => rfl
  | cons x t ih => exact ih

/-- Unconditional loop invariant for the dedup loop: whatever the order of
the raw hits, the kept `file_id`s stay pairwise distinct.  The state
invariants: the kept `file_id`s are distinct, a `file_id` absent from `seen`
is absent from the kept hits, and every `seen` entry points at a kept hit
with exactly its `file_id` (so the replacement branch overwrites a hit of the
*same* file and cannot create a duplicate). -/
theorem dedupLoop_nodup (n : Nat) :
    ∀ (rest : List CHit) (seen : List (Int × Nat)) (uniq : List CHit),
      (uniq.map CHit.fileId).Nodup →
      (∀ fid, lookupA fid seen = none → ∀ u ∈ uniq, u.fileId ≠ some fid) →
      (∀ p ∈ seen, ∃ u, uniq.get? p.2 = some u ∧ u.fileId = some p.1) →
      ((dedupLoop n rest seen uniq).map CHit.fileId).Nodup := by
  intro rest
  induction rest with
  | nil => intro seen uniq hI2 _ _; exact hI2
  | cons h rest' ih =>
    intro seen uniq hI2 hI3 hI8
    rw [dedupLoop]
    cases hfid : h.fileId with
    | none => exact ih seen uniq hI2 hI3 hI8
    | some fid =>
      cases hlk : lookupA fid seen with
      | none =>
        simp only [hlk]
        have hI2' : ((uniq ++ [h]).map CHit.fileId).Nodup := by
          rw [List.map_append, List.nodup_append]
          refine ⟨hI2, by simp, ?_⟩
          intro x hx hx'
          rcases List.mem_map.mp hx with ⟨u, hu, rfl⟩
          simp only [List.map_cons, List.map_nil] at hx'
          rcases List.mem_singleton.mp hx' with heqf
          exact hI3 fid hlk u hu (by rw [heqf, hfid])
        have hI3' : ∀ f, lookupA f (seen ++ [(fid, uniq.length)]) = none →
            ∀ u ∈ uniq ++ [h], u.fileId ≠ some f := by
          intro f hf u hu
          obtain ⟨hfseen, hne⟩ := lookupA_append_none hf
          rcases List.mem_append.mp hu with hu | hu
          · exact hI3 f hfseen u hu
          · rcases List.mem_singleton.mp hu with rfl
            rw [hfid]
            intro hcon
            exact hne (Option.some.inj hcon).symm
        have hI8' : ∀ p ∈ seen ++ [(fid, uniq.length)],
            ∃ u, (uniq ++ [h]).get? p.2 = some u ∧ u.fileId = some p.1 := by
          intro p hp
          rcases List.mem_append.mp hp with hp | hp
          · obtain ⟨u, hget, hufid⟩ := hI8 p hp
            refine ⟨u, ?_, hufid⟩
            rw [listGetAppend uniq [h] p.2 (listGetSome_lt uniq p.2 u hget)]
            exact hget
          · rcases List.mem_singleton.mp hp with rfl
            exact ⟨h, listGetConcat uniq h, hfid⟩
        by_cases hn : n ≤ (seen ++ [(fid, uniq.length)]).length
        · rw [if_pos hn]; exact hI2'
        · rw [if_neg hn]; exact ih _ _ hI2' hI3' hI8'
      | some idx =>
        simp only [hlk]
        obtain ⟨u0, hu0get, hu0fid⟩ := hI8 (fid, idx) (lookupA_mem hlk)
        have hmapset : (uniq.set idx h).map CHit.fileId = uniq.map CHit.fileId := by
          rw [listMapSet]
          apply listSetSame
          rw [listGetMap, hu0get]
          show some u0.fileId = some h.fileId
          rw [hu0fid, hfid]
        have hI2s : ∀ (U : List CHit),
            U = (if h.dist < (uniq.getD idx default).dist then uniq.set idx h else uniq) →
            (U.map CHit.fileId).Nodup := by
          intro U hU
          by_cases hdlt : h.dist < (uniq.getD idx default).dist
          · rw [hU, if_pos hdlt, hmapset]; exact hI2
          · rw [hU, if_neg hdlt]; exact hI2
        have hI3s : ∀ (U : List CHit),
            U = (if h.dist < (uniq.getD idx default).dist then uniq.set idx h else uniq) →
            ∀ f, lookupA f seen = none → ∀ u ∈ U, u.fileId ≠ some f := by
          intro U hU f hf u hu
          by_cases hdlt : h.dist < (uniq.getD idx default).dist
          · rw [hU, if_pos hdlt] at hu
            rcases List.mem_or_eq_of_mem_set hu with hu | rfl
            · exact hI3 f hf u hu
            · rw [hfid]
              intro hcon
              have hffid : f = fid := (Option.some.inj hcon).symm
              rw [hffid, hlk] at hf
              exact absurd hf (by simp)
          · rw [hU, if_neg hdlt] at hu
            exact hI3 f hf u hu
        have hI8s : ∀ (U : List CHit),
            U = (if h.dist < (uniq.getD idx default).dist then uniq.set idx h else uniq) →
            ∀ p ∈ seen, ∃ u, U.get? p.2 = some u ∧ u.fileId = some p.1 := by
          intro U hU p hp
          obtain ⟨u', hu'get, hu'fid⟩ := hI8 p hp
          by_cases hdlt : h.dist < (uniq.getD idx default).dist
          · rw [hU, if_pos hdlt]
            by_cases hpidx : p.2 = idx
            · rw [hpidx]
              refine ⟨h, listGetSetEq uniq idx h (listGetSome_lt uniq idx u0 hu0get), ?_⟩
              rw [hpidx] at hu'get
              have hu'u0 : u' = u0 := Option.some.inj (hu'get.symm.trans hu0get)
              have hp1 : some p.1 = some fid := by rw [← hu'fid, hu'u0, hu0fid]
              rw [hfid]
              exact hp1.symm
            · refine ⟨u', ?_, hu'fid⟩
              rw [listGetSetNe uniq idx p.2 h hpidx]
              exact hu'get
          · rw [hU, if_neg hdlt]
            exact ⟨u', hu'get, hu'fid⟩
        by_cases hn : n ≤ seen.length
        · rw [if_pos hn]
          exact hI2s _ rfl
        · rw [if_neg hn]
          exact ih seen _ (hI2s _ rfl) (hI3s _ rfl) (hI8s _ rfl)

/-- C1 (amended): for every raw hit list, the deduplicated output of
`search_similar` contains at most one hit per `file_id` (first conjunct,
unconditional); and *provided the raw hits arrive sorted by nondecreasing
distance* (nearest-first, as the vector store returns them), every kept hit
is the minimum-distance hit among all input hits sharing its `file_id`
(second conjunct).  Without the sortedness proviso the minimality part
fails, because the loop may break before scanning a better later chunk —
see `searchSimilar_not_min_cex`. -/
theorem searchSimilar_dedup (n : Nat) (hits : List CHit) :
    ((searchSimilar n hits).map CHit.fileId).Nodup ∧
      (hits.Pairwise (fun a b => a.dist ≤ b.dist) →
        ∀ u ∈ searchSimilar n hits, u ∈ hits ∧
          ∀ g ∈ hits, g.fileId = u.fileId → u.dist ≤ g.dist) := by
  constructor
  · have hall := dedupLoop_nodup n hits [] [] (by simp)
      (by intro f _ u hu; exact absurd hu (List.not_mem_nil u))
      (by intro p hp; exact absurd hp (List.not_mem_nil p))
    have hsub : List.Sublist ((searchSimilar n hits).map CHit.fileId)
        ((dedupLoop n hits [] []).map CHit.fileId) :=
      List.Sublist.map _ (List.take_sublist n _)
    exact List.Nodup.sublist hsub hall
  · intro hs u hu
    have main := dedupLoop_sorted_inv hits hs n hits [] [] []
      (by rw [List.nil_append])
      (by intro u hu; exact absurd hu (List.not_mem_nil u))
      (by intro u hu; exact absurd hu (List.not_mem_nil u))
      (by simp)
      (by intro f _ u hu; exact absurd hu (List.not_mem_nil u))
      (by intro p hp; exact absurd hp (List.not_mem_nil p))
      (by intro d hd; exact absurd hd (List.not_mem_nil d))
    exact main.1 u (List.take_subset n _ hu)

/-- Two distance-sorted hits from distinct files, for the C1 witness. -/
def sortedHits : List CHit := [⟨"wa", some 1, 0⟩, ⟨"wb", some 2, 1⟩]

theorem searchSimilar_dedup_witness :
    ((searchSimilar 2 sortedHits).map CHit.fileId).Nodup ∧
      (sortedHits.Pairwise (fun a b => a.dist ≤ b.dist) ∧
        ∀ u ∈ searchSimilar 2 sortedHits, u ∈ sortedHits ∧
          ∀ g ∈ sortedHits, g.fileId = u.fileId → u.dist ≤ g.dist) :=
  ⟨(searchSimilar_dedup 2 sortedHits).1,
   by norm_num [sortedHits, List.pairwise_cons],
   (searchSimilar_dedup 2 sortedHits).2
     (by norm_num [sortedHits, List.pairwise_cons])⟩

/-- C1 counterexample: with `num_results = 1` and a raw hit list that is
*not* sorted by distance, the loop keeps the first chunk of file 7 (distance
1) and breaks before seeing the better chunk (distance 0): the kept hit is
not the minimum-distance hit of its file. -/
theorem searchSimilar_not_min_cex :
    searchSimilar 1 [⟨"docA", some 7, 1⟩, ⟨"docB", some 7, 0⟩] =
        [⟨"docA", some 7, 1⟩] ∧
      (⟨"docB", some 7, 0⟩ : CHit).fileId = (⟨"docA", some 7, 1⟩ : CHit).fileId ∧
      (⟨"docB", some 7, 0⟩ : CHit).dist < (⟨"docA", some 7, 1⟩ : CHit).dist := by
  decide

/-! ## `AISearchService.ai_rerank_result`

The LLM call is an oracle outcome (`Except Unit String`: a raised exception
or the generated text); `pf` models Python's `float()` parsing of a token,
kept abstract so the theorems hold for every parser. -/

/-- Python `s.split()` (no separator): maximal whitespace-separated words. -/
def pyWords (s : String) : List String :=
  (s.split Char.isWhitespace).filter (fun w => w ≠ "")

/-- `ai_rerank_result`: take the first whitespace token of the model output,
parse it as a float, clamp to `[1, 10]` and divide by 10; any failure —
generation error, empty output (`split()[0]` raising `IndexError`), or an
unparseable token (`float()` raising `ValueError`), collapsed here into one
`Option.bind` — is caught by the `except` and yields the neutral 0.5. -/
def ai_rerank_result (pf : String → Option ℚ) (gen : Except Unit String) : ℚ :=
  match gen with
  | .error _ => 1/2
  | .ok resp =>
    match (pyWords resp).head?.bind pf with
    | none => 1/2
    | some x => max 1 (min 10 x) / 10

/-- C6: for every model output, `ai_rerank_result` returns a score in
`[0, 1]` (first conjunct: a parsed token is clamped to the 1–10 scale and
normalised, a failure yields 0.5 — both land in `[0, 1]`), and an output
whose first token does not parse as a number yields exactly the neutral 0.5
(second conjunct); the surrounding `try/except` means no exception reaches
the caller, which the totality of this function models. -/
theorem aiRerank_unit_and_default (pf : String → Option ℚ) (gen : Except Unit String) :
    (0 ≤ ai_rerank_result pf gen ∧ ai_rerank_result pf gen ≤ 1) ∧
      ∀ s, gen = .ok s →
        (∀ tok, (pyWords s).head? = some tok → pf tok = none) →
        ai_rerank_result pf gen = 1/2 := by
  constructor
  · cases gen with
    | error e => constructor <;> norm_num [ai_rerank_result]
    | ok s =>
      rw [ai_rerank_result]
      cases hb : (pyWords s).head?.bind pf with
      | none => exact ⟨by norm_num, by norm_num⟩
      | some x =>
        constructor
        · have h1 : (1:ℚ) ≤ max 1 (min 10 x) := le_max_left _ _
          have : (0:ℚ) ≤ max 1 (min 10 x) / 10 := by positivity
          exact this
        · show max 1 (min 10 x) / 10 ≤ 1
          rw [div_le_one (by norm_num : (0:ℚ) < 10)]
          exact max_le (by norm_num) (min_le_left _ _)
  · intro s hgen hnone
    subst hgen
    rw [ai_rerank_result]
    have hb : (pyWords s).head?.bind pf = none := by
      cases htok : (pyWords s).head? with
      | none => rfl
      | some tok =>
        show pf tok = none
        exact hnone tok htok
    rw [hb]

theorem aiRerank_unit_and_default_witness :
    ai_rerank_result (fun _ => none) (.ok "abc") = 1/2 :=
  (aiRerank_unit_and_default (fun _ => none) (.ok "abc")).2 "abc" rfl (fun _ _ => rfl)

/-- C10: the reranker's score is never below 0.1: a parsed token is clamped
to `[1, 10]` before the division by 10, and the failure default is 0.5, so
scores in `[0, 0.1)` — in particular 0 — are unreachable. -/
theorem aiRerank_ge_tenth (pf : String → Option ℚ) (gen : Except Unit String) :
    1/10 ≤ ai_rerank_result pf gen := by
  cases gen with
  | error e => norm_num [ai_rerank_result]
  | ok s =>
    rw [ai_rerank_result]
    cases hb : (pyWords s).head?.bind pf with
    | none => exact (by norm_num : (1:ℚ)/10 ≤ 1/2)
    | some x =>
      show (1:ℚ)/10 ≤ max 1 (min 10 x) / 10
      rw [div_le_div_iff_of_pos_right (by norm_num : (0:ℚ) < 10)]
      exact le_max_left _ _

/-! ## Stable descending sort

Python's `list.sort(key=…, reverse=True)` is a stable descending sort; a
stable sort's output is unique, so any stable implementation models it.  Here:
insertion sort that inserts each element (scanning from the original order's
end via `foldr`) *before* the first element whose key is not larger. -/

/-- Insert `x` after every element with a strictly larger key. -/
def insDesc {α : Type} (key : α → ℚ) (x : α) : List α → List α
  | [] => [x]
  | y :: ys => if key x < key y then y :: insDesc key x ys else x :: y :: ys

/-- Stable descending sort by `key`. -/
def sortDescBy {α : Type} (key : α → ℚ) (l : List α) : List α :=
  l.foldr (insDesc key) []

theorem insDesc_mem {α : Type} (key : α → ℚ) (x z : α) :
    ∀ (l : List α), z ∈ insDesc key x l ↔ z = x ∨ z ∈ l := by
  intro l
  induction l with
  | nil => simp [insDesc]
  | cons y ys ih =>
    rw [insDesc]
    by_cases hxy : key x < key y
    · rw [if_pos hxy]
      simp only [List.mem_cons, ih]
      tauto
    · rw [if_neg hxy]
      simp only [List.mem_cons]

theorem insDesc_pairwise {α : Type} (key : α → ℚ) (x : α) :
    ∀ (l : List α), l.Pairwise (fun a b => key b ≤ key a) →
      (insDesc key x l).Pairwise (fun a b => key b ≤ key a) := by
  intro l
  induction l with
  | nil => intro _; simp [insDesc]
  | cons y ys ih =>
    intro hp
    obtain ⟨hy, hys⟩ := List.pairwise_cons.mp hp
    rw [insDesc]
    by_cases hxy : key x < key y
    · rw [if_pos hxy]
      rw [List.pairwise_cons]
      refine ⟨?_, ih hys⟩
      intro z hz
      rcases (insDesc_mem key x z ys).mp hz with rfl | hz
      · exact le_of_lt hxy
      · exact hy z hz
    · rw [if_neg hxy]
      rw [List.pairwise_cons]
      refine ⟨?_, hp⟩
      intro z hz
      rcases List.mem_cons.mp hz with rfl | hz
      · exact not_lt.mp hxy
      · exact le_trans (hy z hz) (not_lt.mp hxy)

theorem sortDescBy_pairwise {α : Type} (key : α → ℚ) (l : List α) :
    (sortDescBy key l).Pairwise (fun a b => key b ≤ key a) := by
  induction l with
  | nil => simp [sortDescBy]
  | cons x xs ih => exact insDesc_pairwise key x _ ih

theorem sortDescBy_mem {α : Type} (key : α → ℚ) (z : α) :
    ∀ (l : List α), z ∈ sortDescBy key l ↔ z ∈ l := by
  intro l
  induction l with
  | nil => simp [sortDescBy]
  | cons x xs ih =>
    show z ∈ insDesc key x (sortDescBy key xs) ↔ _
    rw [insDesc_mem, ih, List.mem_cons]

/-- Stability, phrased on key classes: inserting `x` prepends it to its own
key class and leaves every class untouched otherwise (the elements passed
over all have strictly larger keys). -/
theorem insDesc_filter {α : Type} (key : α → ℚ) (x : α) (q : ℚ) :
    ∀ (l : List α), (insDesc key x l).filter (fun z => key z == q) =
      if key x == q then x :: l.filter (fun z => key z == q)
      else l.filter (fun z => key z == q) := by
  intro l
  induction l with
  | nil =>
    by_cases hxq : key x = q
    · simp [insDesc, List.filter_cons, hxq]
    · simp [insDesc, List.filter_cons, hxq]
  | cons y ys ih =>
    rw [insDesc]
    by_cases hxy : key x < key y
    · rw [if_pos hxy, List.filter_cons, ih]
      by_cases hxq : key x = q
      · have hyq : ¬ key y = q := by
          intro hyq
          rw [hxq, hyq] at hxy
          exact lt_irrefl q hxy
        simp [List.filter_cons, hxq, hyq]
      · by_cases hyq : key y = q
        · simp [List.filter_cons, hxq, hyq]
        · simp [List.filter_cons, hxq, hyq]
    · rw [if_neg hxy, List.filter_cons]

theorem sortDescBy_filter {α : Type} (key : α → ℚ) (q : ℚ) :
    ∀ (l : List α), (sortDescBy key l).filter (fun z => key z == q) =
      l.filter (fun z => key z == q) := by
  intro l
  induction l with
  | nil => rfl
  | cons x xs ih =>
    show (insDesc key x (sortDescBy key xs)).filter _ = _
    rw [insDesc_filter, ih]
    by_cases hxq : key x = q
    · simp [List.filter_cons, hxq]
    · simp [List.filter_cons, hxq]

/-- Python `l[:n]`: a non-negative bound truncates to `n`, a negative bound
drops the last `|n|` elements. -/
def pyTakeInt {α : Type} (n : Int) (l : List α) : List α :=
  if 0 ≤ n then l.take n.toNat else l.take (l.length - (-n).toNat)

/-- Python `round(q, 4)` (on exact rationals; the half-even/half-up
difference at exact ties does not affect any property proved here). -/
def round4 (q : ℚ) : ℚ := (round (q * 10000) : ℚ) / 10000

theorem round_rat_mono {a b : ℚ} (h : a ≤ b) : round a ≤ round b := by
  rw [round_eq, round_eq]
  exact Int.floor_mono (by linarith)

theorem round4_unit {q : ℚ} (h0 : 0 ≤ q) (h1 : q ≤ 1) :
    0 ≤ round4 q ∧ round4 q ≤ 1 := by
  have hlo : (0:ℤ) ≤ round (q * 10000) := by
    have := round_rat_mono (by linarith : (0:ℚ) ≤ q * 10000)
    rw [round_zero] at this
    exact this
  have hhi : round (q * 10000) ≤ 10000 := by
    have := round_rat_mono (by linarith : q * 10000 ≤ (10000:ℚ))
    have h10 : round ((10000:ℚ)) = 10000 := by
      rw [show ((10000:ℚ)) = ((10000:ℤ) : ℚ) by norm_num, round_intCast]
    rw [h10] at this
    exact this
  constructor
  · rw [round4]
    apply div_nonneg _ (by norm_num : (0:ℚ) ≤ 10000)
    exact_mod_cast hlo
  · rw [round4, div_le_one (by norm_num : (0:ℚ) < 10000)]
    exact_mod_cast hhi

/-! ## `AISearchService.hybrid_search` -/

/-- `AISearchRequest` (a pydantic model with *no* field constraints: any
string query, any integer `n_results`). -/
structure AISearchRequest where
  query : String
  n_results : Int
  use_ai_enhancement : Bool
  search_type : String
  include_explanations : Bool
  rerank_with_ai : Bool

/-- `AISearchResult`. -/
structure AISearchResult where
  id : String
  content : String
  metadata : List (String × String)
  similarity_score : ℚ
  ai_relevance_score : Option ℚ
  combined_score : Option ℚ
  relevance_explanation : Option String
  enhanced_query : Option String

/-- `AISearchResponse`, with the `search_metadata` dict flattened into fields
and the wall-clock `processing_time` omitted (not modelled). -/
structure AISearchResponse where
  results : List AISearchResult
  original_query : String
  enhanced_query : Option String
  total_candidates : Nat
  ai_enhancement_used : Bool
  ai_reranking_used : Bool
  explanations_included : Bool

/-- One raw hit of `document_processor.search_similar_documents`. -/
structure VecHit where
  id : String
  doc : String
  meta : List (String × String)
  dist : ℚ

/-- The vector store's answer; `hasDistances` models the truthiness test
`if search_results["distances"]` on the distance list. -/
structure VecResults where
  hits : List VecHit
  hasDistances : Bool

/-- The external collaborators of `AISearchService`, as oracles: the LLM
generation outcomes for enhancement / per-candidate reranking / per-candidate
explanation, the embedding model, the vector store, and Python's `float()`
parser (abstract). -/
structure Oracles where
  generate_enhance : Except Unit String
  embed : String → List ℚ
  vecSearch : List ℚ → Int → VecResults
  generate_rerank : Nat → Except Unit String
  generate_explain : Nat → Except Unit String
  pyFloat : String → Option ℚ

/-- `enhance_query`: the generated text, stripped; on any generation error
the original query is returned (the error is only logged). -/
def enhance_query (o : Oracles) (original : String) : String :=
  match o.generate_enhance with
  | .ok s => s.trim
  | .error _ => original

/-- `generate_relevance_explanation` for candidate `i`: the generated text,
stripped; on error the fixed fallback sentence. -/
def generate_relevance_explanation (o : Oracles) (query : String) (i : Nat) : String :=
  match o.generate_explain i with
  | .ok s => s.trim
  | .error _ => "This content contains information relevant to '" ++ query ++ "'."

/-- `initial_count`: fetch twice as many candidates when reranking. -/
def initialCount (req : AISearchRequest) : Int :=
  if req.rerank_with_ai then req.n_results * 2 else req.n_results

/-- The `AISearchResult` built for candidate `i` in the processing loop of
`hybrid_search` (steps 3–5): similarity is `1 − distance` (or 0 when the
distance list is falsy), rounded to 4 places; under reranking the AI score
and the fused `0.6·similarity + 0.4·aiScore` are added. -/
def mkResult (o : Oracles) (req : AISearchRequest) (search_query : String)
    (hasD : Bool) (i : Nat) (h : VecHit) : AISearchResult :=
  let similarity : ℚ := if hasD then 1 - h.dist else 0
  let ai_score : ℚ := ai_rerank_result o.pyFloat (o.generate_rerank i)
  { id := h.id
    content := h.doc
    metadata := h.meta
    similarity_score := round4 similarity
    ai_relevance_score := if req.rerank_with_ai then some (round4 ai_score) else none
    combined_score :=
      if req.rerank_with_ai then
        some (round4 (similarity * (6/10) + ai_score * (4/10)))
      else none
    relevance_explanation :=
      if req.include_explanations then
        some (generate_relevance_explanation o req.query i)
      else none
    enhanced_query := if req.use_ai_enhancement then some search_query else none }

/-- The `for i in range(len(search_results))` processing loop. -/
def processResults (o : Oracles) (req : AISearchRequest) (search_query : String)
    (hasD : Bool) : Nat → List VecHit → List AISearchResult
  | _, [] => []
  | i, h :: t =>
    mkResult o req search_query hasD i h :: processResults o req search_query hasD (i + 1) t

/-- The processed (pre-sort) candidate list of `hybrid_search`, in the
vector store's order. -/
def hybridCandidates (o : Oracles) (req : AISearchRequest) (search_query : String) :
    List AISearchResult :=
  let sr := o.vecSearch (o.embed search_query) (initialCount req)
  processResults o req search_query sr.hasDistances 0 sr.hits

/-- The sort key of step 6: `combined_score` under reranking (always present
then; `getD 0` only discharges the `Option`), else `similarity_score`. -/
def searchKey (rerank : Bool) (r : AISearchResult) : ℚ :=
  if rerank then r.combined_score.getD 0 else r.similarity_score

/-- `hybrid_search` from step 2 on, given the search query chosen in step 1:
embed, vector-search, process, stable-sort descending by the appropriate
score, truncate to `n_results`. -/
def hybridSearchFrom (o : Oracles) (req : AISearchRequest) (search_query : String) :
    AISearchResponse :=
  let sr := o.vecSearch (o.embed search_query) (initialCount req)
  let processed := hybridCandidates o req search_query
  { results := pyTakeInt req.n_results (sortDescBy (searchKey req.rerank_with_ai) processed)
    original_query := req.query
    enhanced_query := if req.use_ai_enhancement then some search_query else none
    total_candidates := sr.hits.length
    ai_enhancement_used := req.use_ai_enhancement
    ai_reranking_used := req.rerank_with_ai
    explanations_included := req.include_explanations }

/-- Step 1 of `hybrid_search`: the `search_query` variable — the enhanced
query when `use_ai_enhancement` is set, else the original. -/
def chosenQuery (o : Oracles) (req : AISearchRequest) : String :=
  if req.use_ai_enhancement then enhance_query o req.query else req.query

/-- `hybrid_search`: step 1 chooses the search query, the rest is
`hybridSearchFrom`. -/
def hybridSearch (o : Oracles) (req : AISearchRequest) : AISearchResponse :=
  hybridSearchFrom o req (chosenQuery o req)

theorem processResults_mem (o : Oracles) (req : AISearchRequest) (sq : String)
    (hasD : Bool) :
    ∀ (l : List VecHit) (i : Nat) (r : AISearchResult),
      r ∈ processResults o req sq hasD i l →
      ∃ j h, h ∈ l ∧ r = mkResult o req sq hasD j h := by
  intro l
  induction l with
  | nil => intro i r hr; exact absurd hr (by simp [processResults])
  | cons h t ih =>
    intro i r hr
    rw [processResults] at hr
    rcases List.mem_cons.mp hr with rfl | hr
    · exact ⟨i, h, List.mem_cons_self _ _, rfl⟩
    · obtain ⟨j, h', hh', heq⟩ := ih (i + 1) r hr
      exact ⟨j, h', List.mem_cons_of_mem _ hh', heq⟩

/-- C2: with a positive requested result count (the spec's request type has
`resultCount : int > 0`), the final result list is sorted descending by the
score that was used — `combined_score` when reranking was requested, else
`similarity_score` (`searchKey`) —, has length at most `n_results`, and ties
keep the original vector-store order: for every key value `q`, the results
with key `q` form a sublist of the pre-sort candidate list (the sort is
stable and truncation preserves order). -/
theorem hybridSearch_sorted_trunc_stable (o : Oracles) (req : AISearchRequest)
    (hn : 0 < req.n_results) :
    (hybridSearch o req).results.Pairwise
        (fun a b => searchKey req.rerank_with_ai b ≤ searchKey req.rerank_with_ai a) ∧
      (hybridSearch o req).results.length ≤ req.n_results.toNat ∧
      ∀ q : ℚ,
        List.Sublist
          ((hybridSearch o req).results.filter
            (fun r => searchKey req.rerank_with_ai r == q))
          ((hybridCandidates o req (chosenQuery o req)).filter
            (fun r => searchKey req.rerank_with_ai r == q)) := by
  have hres : (hybridSearch o req).results =
      pyTakeInt req.n_results
        (sortDescBy (searchKey req.rerank_with_ai)
          (hybridCandidates o req (chosenQuery o req))) := rfl
  have htake : (hybridSearch o req).results =
      (sortDescBy (searchKey req.rerank_with_ai)
        (hybridCandidates o req (chosenQuery o req))).take req.n_results.toNat := by
    rw [hres, pyTakeInt, if_pos (le_of_lt hn)]
  refine ⟨?_, ?_, ?_⟩
  · rw [htake]
    exact List.Pairwise.sublist (List.take_sublist _ _) (sortDescBy_pairwise _ _)
  · rw [htake, List.length_take]
    exact min_le_left _ _
  · intro q
    rw [htake]
    have h1 := List.Sublist.filter (fun r => searchKey req.rerank_with_ai r == q)
      (List.take_sublist req.n_results.toNat
        (sortDescBy (searchKey req.rerank_with_ai)
          (hybridCandidates o req (chosenQuery o req))))
    rw [sortDescBy_filter] at h1
    exact h1

/-- A plain two-candidate scenario for the C2 witness. -/
def wOracles : Oracles :=
  { generate_enhance := .error ()
    embed := fun _ => []
    vecSearch := fun _ _ => { hits := [⟨"c1", "t1", [], 0⟩, ⟨"c2", "t2", [], 1⟩],
                              hasDistances := true }
    generate_rerank := fun _ => .error ()
    generate_explain := fun _ => .error ()
    pyFloat := fun _ => none }

def wReq : AISearchRequest := ⟨"q", 2, false, "semantic", false, false⟩

theorem hybridSearch_sorted_trunc_stable_witness :
    0 < wReq.n_results ∧
      ((hybridSearch wOracles wReq).results.Pairwise
          (fun a b => searchKey wReq.rerank_with_ai b ≤ searchKey wReq.rerank_with_ai a) ∧
        (hybridSearch wOracles wReq).results.length ≤ wReq.n_results.toNat ∧
        ∀ q : ℚ,
          List.Sublist
            ((hybridSearch wOracles wReq).results.filter
              (fun r => searchKey wReq.rerank_with_ai r == q))
            ((hybridCandidates wOracles wReq (chosenQuery wOracles wReq)).filter
              (fun r => searchKey wReq.rerank_with_ai r == q))) :=
  ⟨by norm_num [wReq],
   hybridSearch_sorted_trunc_stable wOracles wReq (by norm_num [wReq])⟩

/-- C4 (amended): the similarity score is `round(1 − distance, 4)` with no
clamping, so it lies in `[0, 1]` *provided every vector-store distance lies
in `[0, 1]`*; cosine distance in general ranges over `[0, 2]`, and a distance
above 1 yields a negative score — see `hybridSearch_similarity_negative_cex`.
The `else` branch (falsy distance list) assigns 0, also in range. -/
theorem hybridSearch_similarity_unit (o : Oracles) (req : AISearchRequest)
    (hd : ∀ (e : List ℚ) (k : Int), ∀ h ∈ (o.vecSearch e k).hits,
      0 ≤ h.dist ∧ h.dist ≤ 1) :
    ∀ r ∈ (hybridSearch o req).results,
      0 ≤ r.similarity_score ∧ r.similarity_score ≤ 1 := by
  intro r hr
  have hres : (hybridSearch o req).results =
      pyTakeInt req.n_results
        (sortDescBy (searchKey req.rerank_with_ai)
          (hybridCandidates o req (chosenQuery o req))) := rfl
  rw [hres, pyTakeInt] at hr
  have hr1 : r ∈ sortDescBy (searchKey req.rerank_with_ai)
      (hybridCandidates o req (chosenQuery o req)) := by
    by_cases h0 : (0:Int) ≤ req.n_results
    · rw [if_pos h0] at hr; exact List.take_subset _ _ hr
    · rw [if_neg h0] at hr; exact List.take_subset _ _ hr
  rw [sortDescBy_mem] at hr1
  have hcand : hybridCandidates o req (chosenQuery o req) =
      processResults o req (chosenQuery o req)
        (o.vecSearch (o.embed (chosenQuery o req)) (initialCount req)).hasDistances 0
        (o.vecSearch (o.embed (chosenQuery o req)) (initialCount req)).hits := rfl
  rw [hcand] at hr1
  obtain ⟨j, h, hh, rfl⟩ := processResults_mem o req (chosenQuery o req) _ _ 0 r hr1
  obtain ⟨hd0, hd1⟩ := hd (o.embed (chosenQuery o req)) (initialCount req) h hh
  have hsim : (mkResult o req (chosenQuery o req)
      (o.vecSearch (o.embed (chosenQuery o req)) (initialCount req)).hasDistances j h).similarity_score =
      round4 (if (o.vecSearch (o.embed (chosenQuery o req)) (initialCount req)).hasDistances
        then 1 - h.dist else 0) := rfl
  rw [hsim]
  cases hB : (o.vecSearch (o.embed (chosenQuery o req)) (initialCount req)).hasDistances with
  | false =>
    rw [if_neg (by simp : ¬ false = true)]
    exact round4_unit (le_refl 0) (by norm_num)
  | true =>
    rw [if_pos (rfl : true = true)]
    exact round4_unit (by linarith) (by linarith)

/-- A one-candidate scenario with cosine distance 2 (opposite vectors): the
assigned similarity score is `1 − 2 = −1`, outside `[0, 1]`. -/
def cex4Oracles : Oracles :=
  { generate_enhance := .error ()
    embed := fun _ => []
    vecSearch := fun _ _ => { hits := [⟨"c1", "t1", [], 2⟩], hasDistances := true }
    generate_rerank := fun _ => .error ()
    generate_explain := fun _ => .error ()
    pyFloat := fun _ => none }

def cex4Req : AISearchRequest := ⟨"q", 5, false, "semantic", false, false⟩

/-- C4 counterexample: the pipeline assigns the hit a similarity score of
`−1`, which is not in `[0, 1]` — nothing clamps `1 − distance`. -/
theorem hybridSearch_similarity_negative_cex :
    (hybridSearch cex4Oracles cex4Req).results.map AISearchResult.similarity_score
        = [(-1 : ℚ)] ∧ ((-1 : ℚ) < 0) := by
  constructor
  · have h1 : (hybridSearch cex4Oracles cex4Req).results.map AISearchResult.similarity_score
        = [round4 (1 - (2:ℚ))] := rfl
    have h2 : round4 (1 - (2:ℚ)) = -1 := by
      rw [round4, show (1 - (2:ℚ)) * 10000 = ((-10000 : ℤ) : ℚ) by norm_num,
        round_intCast]
      norm_num
    rw [h1, h2]
  · norm_num

/-- A one-candidate scenario with in-range distances, for the C4 witness. -/
def w4Oracles : Oracles :=
  { generate_enhance := .error ()
    embed := fun _ => []
    vecSearch := fun _ _ => { hits := [⟨"c1", "t1", [], 0⟩], hasDistances := true }
    generate_rerank := fun _ => .error ()
    generate_explain := fun _ => .error ()
    pyFloat := fun _ => none }

theorem hybridSearch_similarity_unit_witness :
    (∀ (e : List ℚ) (k : Int), ∀ h ∈ (w4Oracles.vecSearch e k).hits,
        0 ≤ h.dist ∧ h.dist ≤ 1) ∧
      ∀ r ∈ (hybridSearch w4Oracles cex4Req).results,
        0 ≤ r.similarity_score ∧ r.similarity_score ≤ 1 :=
  ⟨fun e k h hh => by
      rcases List.mem_singleton.mp hh with rfl
      exact ⟨le_refl 0, by norm_num⟩,
   hybridSearch_similarity_unit w4Oracles cex4Req
     (fun e k h hh => by
        rcases List.mem_singleton.mp hh with rfl
        exact ⟨le_refl 0, by norm_num⟩)⟩

/-- C7 (amended): when enhancement is requested and the enhancer's LLM call
raises, `hybrid_search` still returns, and its entire response is the one
computed from the *original* query (`enhance_query` swallows the error and
returns the original); the response echoes the original query as
`enhanced_query`.  But the metadata field `ai_enhancement_used` merely echoes
the request flag — it reports `true`, not `false` as the original claim
states; the failure is only logged.  See `hybridSearch_enhFail_metadata_cex`. -/
theorem hybridSearch_enhance_fallback (o : Oracles) (req : AISearchRequest)
    (henh : req.use_ai_enhancement = true)
    (herr : o.generate_enhance = .error ()) :
    hybridSearch o req = hybridSearchFrom o req req.query ∧
      (hybridSearch o req).ai_enhancement_used = true ∧
      (hybridSearch o req).enhanced_query = some req.query := by
  have hq : chosenQuery o req = req.query := by
    rw [chosenQuery, henh]
    simp only [if_true]
    rw [enhance_query, herr]
  refine ⟨?_, ?_, ?_⟩
  · rw [hybridSearch, hq]
  · show req.use_ai_enhancement = true
    exact henh
  · show (if req.use_ai_enhancement then some (chosenQuery o req) else none)
        = some req.query
    rw [henh, hq]
    simp only [if_true]

/-- A failing-enhancer scenario: enhancement requested, LLM raises. -/
def cex7Oracles : Oracles :=
  { generate_enhance := .error ()
    embed := fun _ => []
    vecSearch := fun _ _ => { hits := [], hasDistances := false }
    generate_rerank := fun _ => .error ()
    generate_explain := fun _ => .error ()
    pyFloat := fun _ => none }

def cex7Req : AISearchRequest := ⟨"orig", 3, true, "semantic", false, false⟩

/-- C7 counterexample: the enhancer raised, yet the response metadata reports
`ai_enhancement_used = true` (the request flag), not `false` as claimed. -/
theorem hybridSearch_enhFail_metadata_cex :
    cex7Oracles.generate_enhance = .error () ∧
      cex7Req.use_ai_enhancement = true ∧
      (hybridSearch cex7Oracles cex7Req).ai_enhancement_used = true :=
  ⟨rfl, rfl, rfl⟩

theorem hybridSearch_enhance_fallback_witness :
    cex7Req.use_ai_enhancement = true ∧
      cex7Oracles.generate_enhance = .error () ∧
      (hybridSearch cex7Oracles cex7Req = hybridSearchFrom cex7Oracles cex7Req cex7Req.query ∧
        (hybridSearch cex7Oracles cex7Req).ai_enhancement_used = true ∧
        (hybridSearch cex7Oracles cex7Req).enhanced_query = some cex7Req.query) :=
  ⟨rfl, rfl, hybridSearch_enhance_fallback cex7Oracles cex7Req rfl rfl⟩

/-- An empty-query, zero-count request: nothing rejects it. -/
def cex9Oracles : Oracles :=
  { generate_enhance := .ok "enhanced"
    embed := fun _ => []
    vecSearch := fun _ _ => { hits := [], hasDistances := false }
    generate_rerank := fun _ => .error ()
    generate_explain := fun _ => .error ()
    pyFloat := fun _ => none }

def cex9Req : AISearchRequest := ⟨"", 0, true, "semantic", false, false⟩

/-- C9: neither `AISearchRequest` (an unconstrained pydantic model) nor
`hybrid_search` rejects an empty query or a non-positive `n_results`: on
`query = ""`, `n_results = 0`, the pipeline consults the query enhancer (its
output `"enhanced"` is consumed into the response), proceeds through
embedding and vector search, and returns a normal empty response — no
rejection before the external calls, contradicting the claim. -/
theorem hybridSearch_no_input_validation :
    cex9Req.query = "" ∧ cex9Req.n_results = 0 ∧
      (hybridSearch cex9Oracles cex9Req).enhanced_query = some ("enhanced".trim) ∧
      (hybridSearch cex9Oracles cex9Req).results = [] :=
  ⟨rfl, rfl, rfl, rfl⟩
